import Mathlib

/-!
Verification of the context-recall indexing and query engine.

The Python source is shallowly embedded:
* message/exchange texts are lists of characters (`List Char`), so that the
  source's slicing, lowercasing and substring tests are explicit;
* an ISO-8601 timestamp string is modelled by `Tstamp`, which carries the
  original string together with the outcome of `datetime.fromisoformat`
  parsing: whether it succeeds (`valid`), the calendar-date portion
  (`date`), the parsed `hour*60+minute` value (`minutes`), and the
  `strftime` renderings of the local time (`rendered`) and of the full date
  (`renderedDate`).  Locale- and timezone-dependent rendering is thereby
  abstracted into precomputed fields, while every decision the code makes
  on a timestamp (validity test, minute arithmetic, date comparison) is
  explicit;
* the persisted JSON index is modelled as an association list of keys to
  `JValue`s, so that presence or absence of a field is statable;
* Python sets of exchange indices are modelled as the list of members in
  scan order (`find_exchanges_around_time`, `search_exchanges`) or as a
  `Finset` where the code sorts the set (`parse_last_n`, result capping).
-/

/-- Characters-per-preview cap, from the source configuration. -/
def PREVIEW_LENGTH : ℕ := 80

/-- Per-message truncation limit, from the source configuration. -/
def MAX_CHARS_PER_MESSAGE : ℕ := 1000

/-- Exchanges per page in paginated rendering, from the source configuration. -/
def PAGE_SIZE : ℕ := 20

/-- Window size for time-proximity queries, from the source configuration. -/
def AROUND_TIME_WINDOW : ℕ := 5

/-- Model of an ISO-8601 timestamp string: the raw string plus the outcome
of parsing and formatting it (see the module docstring). -/
structure Tstamp where
  raw : String
  valid : Bool
  date : String
  minutes : ℕ
  rendered : String
  renderedDate : String
deriving DecidableEq, Repr

/-- A parsed transcript message, as produced by
`parse_transcript_with_timestamps`: role string, extracted text, timestamp.
The role is kept as a string because the builder compares it to the
literals "user" and "assistant". -/
structure Message where
  role : String
  text : List Char
  timestamp : Tstamp
deriving DecidableEq, Repr

/-- A paired exchange as built by `build_exchanges_from_messages`. -/
structure Exchange where
  idx : ℕ
  user_text : List Char
  assistant_text : List Char
  timestamp : Tstamp
deriving DecidableEq, Repr

/-- An entry of the persisted index: `{idx, preview, timestamp}`. -/
structure IndexEntry where
  idx : ℕ
  preview : List Char
  timestamp : Tstamp
deriving DecidableEq, Repr

/-- Embedding of `make_preview`: whitespace-normalize the text
(`' '.join(text.split())`), keep it if within the preview length, else cut
to `PREVIEW_LENGTH - 3` characters and append an ellipsis. -/
def make_preview (text : List Char) : List Char :=
  let norm := List.intercalate [' '] ((text.splitOnP Char.isWhitespace).filter (· ≠ []))
  if norm.length ≤ PREVIEW_LENGTH then norm
  else norm.take (PREVIEW_LENGTH - 3) ++ ("...").toList

/-- The marker `truncate_text` appends when it cuts a message. -/
def truncMarker : List Char := ("\n\n[...truncated...]").toList

/-- Embedding of `truncate_text`: texts within the cap pass through
unchanged, longer texts are cut to the cap and the marker is appended. -/
def truncate_text (text : List Char) (max_chars : ℕ) : List Char :=
  if text.length ≤ max_chars then text
  else text.take max_chars ++ truncMarker

/-- Embedding of the exchange-pairing loop shared by
`build_exchange_index` and `build_exchanges_from_messages`: scan the
messages, emit an exchange for each user message immediately followed by
an assistant message, assigning consecutive indices from `k`; the
exchange's timestamp is the user message's timestamp. -/
def buildFrom : ℕ → List Message → List Exchange
  | _, [] => []
  | _, [_] => []
  | k, m :: a :: rest2 =>
    if m.role = "user" then
      if a.role = "assistant" then
        { idx := k, user_text := m.text, assistant_text := a.text,
          timestamp := m.timestamp } :: buildFrom (k + 1) rest2
      else
        buildFrom k (a :: rest2)
    else
      buildFrom k (a :: rest2)

/-- Embedding of `build_exchanges_from_messages`: pairing starts at index 1. -/
def build_exchanges_from_messages (messages : List Message) : List Exchange :=
  buildFrom 1 messages

/-- Embedding of the persisted-index component of `build_exchange_index`:
the full index carries, for every exchange, its index, a preview of the
user text, and the exchange timestamp.  (The transient recent-exchanges
snapshot also returned by the Python function is not needed by any claim
and is not modelled.) -/
def build_exchange_index (messages : List Message) : List IndexEntry :=
  (build_exchanges_from_messages messages).map
    (fun ex => { idx := ex.idx, preview := make_preview ex.user_text,
                 timestamp := ex.timestamp })

/-- A JSON-like value, used to model the persisted index record. -/
inductive JValue where
  | str : String → JValue
  | num : ℤ → JValue
  | arr : List JValue → JValue
  | obj : List (String × JValue) → JValue

/-- JSON encoding of one index entry. -/
def entry_json (ex : IndexEntry) : JValue :=
  .obj [("idx", .num ex.idx), ("preview", .str (String.mk ex.preview)),
        ("timestamp", .str ex.timestamp.raw)]

/-- Embedding of the `index_data` record built in `save_index_and_snapshot`:
an ordered association list of field names to values, exactly the fields the
source writes.  `session_start` is the first exchange's timestamp if any,
else the current time. -/
def index_data (session_id transcript_path now : String)
    (full_index : List IndexEntry) : List (String × JValue) :=
  [("session_id", .str session_id),
   ("session_start", .str (match full_index with
     | [] => now
     | ex :: _ => ex.timestamp.raw)),
   ("updated_at", .str now),
   ("total_exchanges", .num (full_index.length : ℤ)),
   ("transcript_path", .str transcript_path),
   ("exchanges", .arr (full_index.map entry_json))]

/-- One indexing run as the hook performs it: build the full index from the
parsed messages and form the persisted record.  The run reads no previous
state - the source rebuilds the index from the whole transcript each time. -/
def index_run (messages : List Message) (session_id transcript_path now : String) :
    List (String × JValue) :=
  index_data session_id transcript_path now (build_exchange_index messages)

/-- Embedding of the case lowering `text.lower()` on character lists. -/
def lowered (l : List Char) : List Char := l.map Char.toLower

/-- Substring containment on character lists, the model of Python's
`needle in haystack` for strings: the needle is a prefix of some suffix. -/
def substr_in (needle : List Char) : List Char → Bool
  | [] => needle.isEmpty
  | c :: rest => needle.isPrefixOf (c :: rest) || substr_in needle rest

/-- Embedding of `search_in_text`: case-insensitive substring containment,
`keyword.lower() in text.lower()`. -/
def search_in_text (keyword text : List Char) : Bool :=
  substr_in (lowered keyword) (lowered text)

/-- Embedding of `search_exchanges` (both the fetch and the show-index
variant): the keyword is tested, case-insensitively, against each entry's
`preview` field; the matching entries' `idx` values are returned in scan
order (the Python set of indices is modelled as the list of its members). -/
def search_exchanges (exchanges : List IndexEntry) (keyword : List Char) : List ℕ :=
  (exchanges.filter (fun ex => search_in_text keyword ex.preview)).map (·.idx)

/-- Model of Python's `int()` on a digit string: an optional leading minus
sign followed by at least one decimal digit; anything else raises, modelled
as `none`. -/
def digits_to_nat? (l : List Char) : Option ℕ :=
  if l ≠ [] ∧ l.all Char.isDigit then
    some (l.foldl (fun acc c => acc * 10 + (c.toNat - 48)) 0)
  else none

/-- Signed variant of `digits_to_nat?`, the model of `int(arg)`. -/
def parse_int? : List Char → Option ℤ
  | '-' :: rest => (digits_to_nat? rest).map (fun v => -(v : ℤ))
  | l => (digits_to_nat? l).map (fun v => (v : ℤ))

/-- Embedding of `parse_last_n`: if the lowered argument starts with
"last" and the remainder parses as an integer n, return the contiguous
index set from `max(1, total - n + 1)` to `total` (the Python
`set(range(start, total + 1))`); otherwise the empty set. -/
def parse_last_n (arg : List Char) (total_exchanges : ℕ) : Finset ℤ :=
  if (("last").toList).isPrefixOf (lowered arg) then
    match parse_int? (arg.drop 4) with
    | some n => Finset.Icc (max 1 ((total_exchanges : ℤ) - n + 1)) (total_exchanges : ℤ)
    | none => ∅
  else ∅

/-- Embedding of the best-match scan inside `find_exchanges_around_time`:
walk the entries with position counter `i`, current best position `b` and
current best difference `d` (`none` models the initial infinity); entries
whose timestamp fails to parse are skipped; an entry strictly improving the
best difference becomes the new best. -/
def findBest (target : ℕ) : List IndexEntry → ℕ → ℕ → Option ℕ → ℕ × Option ℕ
  | [], _, b, d => (b, d)
  | ex :: rest, i, b, d =>
    if ex.timestamp.valid then
      match d with
      | none => findBest target rest (i + 1) i (some (Nat.dist ex.timestamp.minutes target))
      | some bd =>
        if Nat.dist ex.timestamp.minutes target < bd then
          findBest target rest (i + 1) i (some (Nat.dist ex.timestamp.minutes target))
        else
          findBest target rest (i + 1) b (some bd)
    else
      findBest target rest (i + 1) b d

/-- Position of the best time match: the scan started at position 0 with
best position 0 and infinite best difference. -/
def bestMatch (exchanges : List IndexEntry) (target : ℕ) : ℕ :=
  (findBest target exchanges 0 0 none).1

/-- Embedding of `find_exchanges_around_time`: locate the best match and
return the `idx` values of the positions from `max(0, best - W/2)` to
`min(len, best + W/2 + 1)` exclusive (the Python set of indices is
modelled as the list of its members in position order).  The target time is
the query's `hour*60+minute` value. -/
def find_exchanges_around_time (exchanges : List IndexEntry) (target : ℕ) : List ℕ :=
  if exchanges = [] then []
  else
    let b := bestMatch exchanges target
    let s := b - AROUND_TIME_WINDOW / 2
    let e := min exchanges.length (b + AROUND_TIME_WINDOW / 2 + 1)
    ((exchanges.drop s).take (e - s)).map (·.idx)

/-- Embedding of the search-result capping in `fetch_exchanges.main`:
when more than 10 indices match, keep `sorted(indices, reverse=True)[:10]`
and signal the truncation; otherwise pass the set through unsignalled. -/
def cap_search_results (indices : Finset ℕ) : Finset ℕ × Bool :=
  if 10 < indices.card then
    ((((indices.sort (· ≤ ·)).reverse).take 10).toFinset, true)
  else
    (indices, false)

/-- Embedding of `format_timestamp` (show-index variant): the rendered
local time of a parseable timestamp, `"??:??"` otherwise. -/
def format_timestamp (ts : Tstamp) : String :=
  if ts.valid then ts.rendered else ("??:??")

/-- Embedding of `format_date`: the rendered date of a parseable
timestamp, `"Unknown date"` otherwise. -/
def format_date (ts : Tstamp) : String :=
  if ts.valid then ts.renderedDate else ("Unknown date")

/-- The one line `format_page` emits per rendered exchange: index,
time-of-day, preview. -/
def exchange_line (ex : IndexEntry) : String :=
  let t := format_timestamp ex.timestamp
  let pv := String.mk ex.preview
  let ix := ex.idx
  s!"**#{ix}** [{t}] \"{pv}\""

/-- Embedding of `format_page`: page 1 holds the most recent `PAGE_SIZE`
exchanges (slice of the reversed list); each rendered exchange contributes
exactly one `exchange_line`; fixed header and navigation lines surround
them.  The result is the joined line list. -/
def format_page (exchanges : List IndexEntry) (page total_exchanges : ℕ)
    (session_start : Tstamp) : String :=
  let total_pages := (total_exchanges + PAGE_SIZE - 1) / PAGE_SIZE
  if exchanges = [] then ("*No exchanges found in this session.*")
  else
    let start_from_end := (page - 1) * PAGE_SIZE
    let page_slice := (exchanges.reverse.drop start_from_end).take PAGE_SIZE
    if page_slice = [] then
      s!"*Page {page} is empty. Total pages: {total_pages}*"
    else
      let d := format_date session_start
      let pm := page - 1
      let pp := page + 1
      let lines :=
        [s!"**Session started:** {d} ({total_exchanges} exchanges)", "",
         s!"**Showing page {page} of {total_pages}** (most recent first):", ""]
        ++ page_slice.map exchange_line
        ++ ["", "---", "", "**Navigation:**"]
        ++ (if 1 < page then [s!"- Show newer: page {pm}"] else [])
        ++ (if page < total_pages then [s!"- Show older: page {pp}"] else [])
        ++ ["- Jump to time: e.g., \"around 2pm\"",
            "- Search: e.g., \"search authentication\""]
      String.intercalate ("\n") lines

/-- Replacing only the calendar-date component of an entry's timestamp. -/
def set_entry_date (ex : IndexEntry) (d : String) : IndexEntry :=
  { ex with timestamp := { ex.timestamp with date := d } }

/-- Concrete transcript for the search counterexample: the term appears
only in the assistant text. -/
def c2msgs : List Message :=
  [⟨"user", ("Help me with login").toList,
    ⟨"t1", true, "2026-01-05", 540, "9:00 am", "d"⟩⟩,
   ⟨"assistant", ("Authentication issue resolved").toList,
    ⟨"t2", true, "2026-01-05", 541, "9:01 am", "d"⟩⟩]

/-- The search term used in the search counterexample. -/
def kwAuth : List Char := ("authentication").toList

/-- Concrete query argument for the lastN witness. -/
def c5arg : List Char := ("last3").toList

/-- Concrete index for the time-proximity witness: three exchanges at
9:00, 14:00 and 20:00. -/
def c6list : List IndexEntry :=
  [⟨1, ("morning plans").toList, ⟨"t1", true, "2026-01-05", 540, "9:00 am", "d"⟩⟩,
   ⟨2, ("midday report").toList, ⟨"t2", true, "2026-01-05", 840, "2:00 pm", "d"⟩⟩,
   ⟨3, ("evening recap").toList, ⟨"t3", true, "2026-01-05", 1200, "8:00 pm", "d"⟩⟩]

/-- A timestamp on January 5 for the pagination counterexample. -/
def c9ts1 : Tstamp :=
  ⟨"2026-01-05T10:00:00Z", true, "2026-01-05", 600, "10:00 am",
   "Jan 05, 2026 at 10:00 AM"⟩

/-- A timestamp on January 6 for the pagination counterexample. -/
def c9ts2 : Tstamp :=
  ⟨"2026-01-06T10:00:00Z", true, "2026-01-06", 600, "10:00 am",
   "Jan 06, 2026 at 10:00 AM"⟩

/-- The January 6 timestamp with its calendar date changed to January 5. -/
def c9ts2x : Tstamp :=
  ⟨"2026-01-06T10:00:00Z", true, "2026-01-05", 600, "10:00 am",
   "Jan 06, 2026 at 10:00 AM"⟩

/-- A page whose two exchanges fall on different calendar dates. -/
def c9listA : List IndexEntry :=
  [⟨1, ("first question").toList, c9ts1⟩, ⟨2, ("second question").toList, c9ts2⟩]

/-- The same page with both exchanges on the same calendar date. -/
def c9listB : List IndexEntry :=
  [⟨1, ("first question").toList, c9ts1⟩, ⟨2, ("second question").toList, c9ts2x⟩]

/-- Concrete two-message transcript for the timestamp-origin witness. -/
def c10msgs : List Message :=
  [⟨"user", ("hi").toList, ⟨"tu", true, "2026-01-05", 540, "9:00 am", "d"⟩⟩,
   ⟨"assistant", ("hello").toList, ⟨"ta", true, "2026-01-05", 545, "9:05 am", "d"⟩⟩]

/-- The exchange built from `c10msgs`. -/
def c10ex : Exchange :=
  ⟨1, ("hi").toList, ("hello").toList,
   ⟨"tu", true, "2026-01-05", 540, "9:00 am", "d"⟩⟩

/-- The pairing loop assigns indices `k, k+1, ...` consecutively: the idx
projection of `buildFrom k msgs` is the arithmetic range starting at `k`. -/
lemma buildFrom_map_idx : ∀ (k : ℕ) (msgs : List Message),
    (buildFrom k msgs).map (·.idx) = List.range' k (buildFrom k msgs).length := by
  intro k msgs
  induction k, msgs using buildFrom.induct with
  | case1 k => simp [buildFrom]
  | case2 k m => simp [buildFrom]
  | case3 k m a rest2 hu ha ih =>
      simp [buildFrom, hu, ha, List.range'_succ, ih]
  | case4 k m a rest2 hu ha ih =>
      simp [buildFrom, hu, ha, ih]
  | case5 k m a rest2 hu ih =>
      simp [buildFrom, hu, ih]

/-- Every exchange the pairing loop emits originates from an adjacent
user message and assistant message of the input, and copies its timestamp
and texts from them. -/
lemma buildFrom_mem_origin : ∀ (k : ℕ) (msgs : List Message) (ex : Exchange),
    ex ∈ buildFrom k msgs →
    ∃ i u a, msgs[i]? = some u ∧ msgs[i + 1]? = some a ∧
      u.role = "user" ∧ a.role = "assistant" ∧
      ex.timestamp = u.timestamp ∧ ex.user_text = u.text ∧
      ex.assistant_text = a.text := by
  intro k msgs
  induction k, msgs using buildFrom.induct with
  | case1 k => intro ex hex; simp [buildFrom] at hex
  | case2 k m => intro ex hex; simp [buildFrom] at hex
  | case3 k m a rest2 hu ha ih =>
      intro ex hex
      rw [buildFrom, if_pos hu, if_pos ha] at hex
      rcases List.mem_cons.mp hex with hhd | htl
      · exact ⟨0, m, a, by simp, by simp, hu, ha, by rw [hhd], by rw [hhd], by rw [hhd]⟩
      · obtain ⟨i, u, b, h1, h2, h3, h4, h5, h6, h7⟩ := ih ex htl
        exact ⟨i + 2, u, b, by simpa using h1, by simpa using h2, h3, h4, h5, h6, h7⟩
  | case4 k m a rest2 hu ha ih =>
      intro ex hex
      rw [buildFrom, if_pos hu, if_neg ha] at hex
      obtain ⟨i, u, b, h1, h2, h3, h4, h5, h6, h7⟩ := ih ex hex
      exact ⟨i + 1, u, b, by simpa using h1, by simpa using h2, h3, h4, h5, h6, h7⟩
  | case5 k m a rest2 hu ih =>
      intro ex hex
      rw [buildFrom, if_neg hu] at hex
      obtain ⟨i, u, b, h1, h2, h3, h4, h5, h6, h7⟩ := ih ex hex
      exact ⟨i + 1, u, b, by simpa using h1, by simpa using h2, h3, h4, h5, h6, h7⟩

/-- Invariant of the best-match scan once a finite best difference `bd` is
held: the final best difference is a lower bound of `bd` and of every
remaining entry's difference, and the final best position either is the
carried one (nothing improved on `bd`) or points at the first entry of the
suffix attaining the final difference, every earlier entry lying strictly
above it. -/
lemma findBest_some_spec (target : ℕ) :
    ∀ (l : List IndexEntry), (∀ ex ∈ l, ex.timestamp.valid = true) →
    ∀ (i b bd : ℕ),
    ∃ rd, (findBest target l i b (some bd)).2 = some rd ∧ rd ≤ bd ∧
      (∀ ex ∈ l, rd ≤ Nat.dist ex.timestamp.minutes target) ∧
      (((findBest target l i b (some bd)).1 = b ∧ rd = bd) ∨
        (∃ j, ∃ hj : j < l.length, (findBest target l i b (some bd)).1 = i + j ∧
          rd = Nat.dist (l.get ⟨j, hj⟩).timestamp.minutes target ∧ rd < bd ∧
          (∀ p, ∀ hp : p < l.length, p < j →
            rd < Nat.dist (l.get ⟨p, hp⟩).timestamp.minutes target))) := by
  intro l
  induction l with
  | nil =>
      intro hv i b bd
      exact ⟨bd, rfl, le_refl _, by simp, Or.inl ⟨rfl, rfl⟩⟩
  | cons e rest ih =>
      intro hv i b bd
      have hev : e.timestamp.valid = true := hv e (List.mem_cons_self _ _)
      have hvr : ∀ ex ∈ rest, ex.timestamp.valid = true :=
        fun ex hx => hv ex (List.mem_cons_of_mem _ hx)
      by_cases hlt : Nat.dist e.timestamp.minutes target < bd
      · have hstep : findBest target (e :: rest) i b (some bd) =
            findBest target rest (i + 1) i
              (some (Nat.dist e.timestamp.minutes target)) := by
          simp [findBest, hev, hlt]
        obtain ⟨rd, h2, hle, hall, hdisj⟩ :=
          ih hvr (i + 1) i (Nat.dist e.timestamp.minutes target)
        rw [hstep]
        refine ⟨rd, h2, le_trans hle (le_of_lt hlt), ?_, ?_⟩
        · intro ex hx
          rcases List.mem_cons.mp hx with rfl | hx2
          · exact hle
          · exact hall ex hx2
        · rcases hdisj with ⟨hb1, hrd⟩ | ⟨j, hj, hb1, hrd, hrdlt, htie⟩
          · refine Or.inr ⟨0, by simp, by omega, ?_, ?_, ?_⟩
            · simpa using hrd
            · omega
            · intro p hp hp0
              omega
          · refine Or.inr ⟨j + 1, by simpa using hj, by omega, ?_, ?_, ?_⟩
            · simpa using hrd
            · exact lt_trans hrdlt hlt
            · intro p hp hplt
              match p with
              | 0 => simpa using hrdlt
              | q + 1 =>
                  have hq : q < rest.length := by simpa using hp
                  have := htie q hq (by omega)
                  simpa using this
      · have hstep : findBest target (e :: rest) i b (some bd) =
            findBest target rest (i + 1) b (some bd) := by
          simp [findBest, hev, hlt]
        obtain ⟨rd, h2, hle, hall, hdisj⟩ := ih hvr (i + 1) b bd
        rw [hstep]
        refine ⟨rd, h2, hle, ?_, ?_⟩
        · intro ex hx
          rcases List.mem_cons.mp hx with rfl | hx2
          · exact le_trans hle (not_lt.mp hlt)
          · exact hall ex hx2
        · rcases hdisj with ⟨hb1, hrd⟩ | ⟨j, hj, hb1, hrd, hrdlt, htie⟩
          · exact Or.inl ⟨hb1, hrd⟩
          · refine Or.inr ⟨j + 1, by simpa using hj, by omega, ?_, ?_, ?_⟩
            · simpa using hrd
            · exact hrdlt
            · intro p hp hplt
              match p with
              | 0 => simpa using lt_of_lt_of_le hrdlt (not_lt.mp hlt)
              | q + 1 =>
                  have hq : q < rest.length := by simpa using hp
                  have := htie q hq (by omega)
                  simpa using this

/-- On a non-empty list of parseable entries, the scan started with
infinite best difference returns the position of the first entry whose
time difference to the target is minimal: it is a global minimum, and
every strictly earlier entry has a strictly larger difference. -/
lemma findBest_none_spec (target : ℕ) (l : List IndexEntry) (hne : l ≠ [])
    (hv : ∀ ex ∈ l, ex.timestamp.valid = true) (i b : ℕ) :
    ∃ j, ∃ hj : j < l.length, (findBest target l i b none).1 = i + j ∧
      (∀ p, ∀ hp : p < l.length,
        Nat.dist (l.get ⟨j, hj⟩).timestamp.minutes target ≤
          Nat.dist (l.get ⟨p, hp⟩).timestamp.minutes target) ∧
      (∀ p, ∀ hp : p < l.length, p < j →
        Nat.dist (l.get ⟨j, hj⟩).timestamp.minutes target <
          Nat.dist (l.get ⟨p, hp⟩).timestamp.minutes target) := by
  match l with
  | [] => exact absurd rfl hne
  | e :: rest =>
    have hev : e.timestamp.valid = true := hv e (List.mem_cons_self _ _)
    have hvr : ∀ ex ∈ rest, ex.timestamp.valid = true :=
      fun ex hx => hv ex (List.mem_cons_of_mem _ hx)
    have hstep : findBest target (e :: rest) i b none =
        findBest target rest (i + 1) i
          (some (Nat.dist e.timestamp.minutes target)) := by
      simp [findBest, hev]
    obtain ⟨rd, h2, hle, hall, hdisj⟩ :=
      findBest_some_spec target rest hvr (i + 1) i
        (Nat.dist e.timestamp.minutes target)
    rcases hdisj with ⟨hb1, hrd⟩ | ⟨j, hj, hb1, hrd, hrdlt, htie⟩
    · refine ⟨0, by simp, by rw [hstep]; omega, ?_, ?_⟩
      · intro p hp
        match p with
        | 0 => simp
        | q + 1 =>
            have hq : q < rest.length := by simpa using hp
            have := hall (rest.get ⟨q, hq⟩) (List.get_mem _ _ _)
            subst hrd
            simpa using this
      · intro p hp hp0
        omega
    · refine ⟨j + 1, by simpa using hj, by rw [hstep]; omega, ?_, ?_⟩
      · intro p hp
        match p with
        | 0 =>
            subst hrd
            simpa using hle
        | q + 1 =>
            have hq : q < rest.length := by simpa using hp
            have := hall (rest.get ⟨q, hq⟩) (List.get_mem _ _ _)
            subst hrd
            simpa using this
      · intro p hp hplt
        match p with
        | 0 =>
            subst hrd
            simpa using hrdlt
        | q + 1 =>
            have hq : q < rest.length := by simpa using hp
            have := htie q hq (by omega)
            subst hrd
            simpa using this

/-- An element at position `j` of `l` lies in the window of `l` that drops
the first `s` positions and keeps the next `t`, whenever `s ≤ j < s + t`. -/
lemma get_mem_drop_take (l : List IndexEntry) (s t j : ℕ) (hj : j < l.length)
    (hs : s ≤ j) (hjt : j - s < t) :
    l.get ⟨j, hj⟩ ∈ (l.drop s).take t := by
  rw [List.mem_iff_getElem]
  refine ⟨j - s, ?_, ?_⟩
  · simp [List.length_take, List.length_drop]
    omega
  · rw [List.getElem_take, List.getElem_drop, List.get_eq_getElem]
    exact getElem_congr (by show s + (j - s) = j; omega)

/-- When the entries' idx values are the position plus one, the idx values
of a drop/take window form the contiguous arithmetic range starting just
above the window's start position. -/
lemma window_map_idx (l : List IndexEntry) (s t : ℕ)
    (hidx : ∀ p, ∀ hp : p < l.length, (l.get ⟨p, hp⟩).idx = p + 1) :
    ((l.drop s).take t).map (·.idx) = List.range' (s + 1) (min t (l.length - s)) := by
  apply List.ext_getElem
  · simp [List.length_take, List.length_drop]
  · intro n h1 h2
    rw [List.getElem_map, List.getElem_take, List.getElem_drop, List.getElem_range']
    have hn : s + n < l.length := by
      simp [List.length_take, List.length_drop] at h1
      omega
    have := hidx (s + n) hn
    rw [List.get_eq_getElem] at this
    rw [this]
    omega

/-- C1 (amended): the persisted index record written by every indexing run
consists of exactly the fields `session_id`, `session_start`, `updated_at`,
`total_exchanges`, `transcript_path` and `exchanges`, in this order; in
particular no `byte_offset` field is ever written. -/
theorem c1_index_record_fields (sid tp now : String) (fi : List IndexEntry) :
    (index_data sid tp now fi).map Prod.fst =
      ["session_id", "session_start", "updated_at", "total_exchanges",
       "transcript_path", "exchanges"] ∧
    "byte_offset" ∉ (index_data sid tp now fi).map Prod.fst := by
  refine ⟨rfl, ?_⟩
  intro h
  simp [index_data] at h

/-- C1 counterexample: a concrete indexing run persists a record with no
`byte_offset` field, refuting the claim that every indexing run writes one. -/
theorem c1_counterexample_no_byte_offset :
    "byte_offset" ∉ (index_run [] ("s") ("t") ("n")).map Prod.fst := by
  decide

/-- C2 (amended): keyword search is a case-insensitive substring match
tested against the stored `preview` field only; an index value is returned
exactly when some entry with that idx has a matching preview.  Assistant
text is never consulted. -/
theorem c2_search_preview_only (exchanges : List IndexEntry)
    (keyword : List Char) (i : ℕ) :
    i ∈ search_exchanges exchanges keyword ↔
      ∃ ex ∈ exchanges, ex.idx = i ∧ search_in_text keyword ex.preview = true := by
  simp only [search_exchanges, List.mem_map, List.mem_filter]
  constructor
  · rintro ⟨ex, ⟨hmem, hmatch⟩, rfl⟩
    exact ⟨ex, hmem, rfl, hmatch⟩
  · rintro ⟨ex, hmem, rfl, hmatch⟩
    exact ⟨ex, ⟨hmem, hmatch⟩, rfl⟩

/-- C2 counterexample: in a session whose single exchange contains the
term "authentication" only in its assistant text, the search returns no
exchange at all, refuting the claim that a match in the assistant text
qualifies the exchange. -/
theorem c2_counterexample_assistant_only :
    search_exchanges (build_exchange_index c2msgs) kwAuth = [] ∧
    (build_exchanges_from_messages c2msgs).map
      (fun ex => search_in_text kwAuth ex.assistant_text) = [true] := by
  constructor
  · decide
  · decide

/-- C3: indexing is idempotent on an unchanged transcript.  The persisted
`total_exchanges` and `exchanges` fields are functions of the parsed
messages alone, so two runs over the same transcript content (differing
only in their run time) persist identical values for both, and the idx
values carry no duplicates. -/
theorem c3_reindex_idempotent (messages : List Message) (sid tp now1 now2 : String) :
    List.lookup ("total_exchanges") (index_run messages sid tp now1) =
      List.lookup ("total_exchanges") (index_run messages sid tp now2) ∧
    List.lookup ("exchanges") (index_run messages sid tp now1) =
      List.lookup ("exchanges") (index_run messages sid tp now2) ∧
    ((build_exchange_index messages).map (·.idx)).Nodup := by
  refine ⟨rfl, rfl, ?_⟩
  have h : (build_exchange_index messages).map (·.idx) =
      (buildFrom 1 messages).map (·.idx) := by
    simp [build_exchange_index, build_exchanges_from_messages, List.map_map]
  rw [h, buildFrom_map_idx]
  exact List.nodup_range' 1 _

/-- C4: for every message sequence the built exchanges carry idx values
that are exactly the contiguous range `1..total`, with no gaps or repeats,
both in the exchange list and in the persisted index, and the persisted
`total_exchanges` equals the length of the exchange sequence. -/
theorem c4_idx_contiguous (messages : List Message) (sid tp now : String) :
    (build_exchanges_from_messages messages).map (·.idx) =
      List.range' 1 (build_exchanges_from_messages messages).length ∧
    (build_exchange_index messages).map (·.idx) =
      List.range' 1 (build_exchange_index messages).length ∧
    List.lookup ("total_exchanges") (index_run messages sid tp now) =
      some (.num ((build_exchange_index messages).length : ℤ)) := by
  refine ⟨buildFrom_map_idx 1 messages, ?_, rfl⟩
  have h : (build_exchange_index messages).map (·.idx) =
      (buildFrom 1 messages).map (·.idx) := by
    simp [build_exchange_index, build_exchanges_from_messages, List.map_map]
  rw [h, buildFrom_map_idx]
  simp [build_exchange_index, build_exchanges_from_messages]

/-- C5: for a positive requested count n, the lastN query over an index of
`total` exchanges returns exactly `{1..total}` when n is at least the
total, and exactly the n highest indices `{total-n+1..total}` when n is
below the total. -/
theorem c5_lastN_clamp (arg : List Char) (n : ℤ) (total : ℕ) (hpos : 0 < n)
    (hl : (("last").toList).isPrefixOf (lowered arg) = true)
    (hn : parse_int? (arg.drop 4) = some n) :
    ((total : ℤ) ≤ n → parse_last_n arg total = Finset.Icc 1 (total : ℤ)) ∧
    (n < (total : ℤ) →
      parse_last_n arg total = Finset.Icc ((total : ℤ) - n + 1) (total : ℤ)) := by
  have hstep : parse_last_n arg total =
      Finset.Icc ((1 : ℤ) ⊔ ((total : ℤ) - n + 1)) (total : ℤ) := by
    unfold parse_last_n
    rw [if_pos hl, hn]
  constructor
  · intro h
    rw [hstep, sup_eq_left.mpr (by omega)]
  · intro h
    rw [hstep, sup_eq_right.mpr (by omega)]

/-- C5 witness: the query "last3" against a 2-exchange index satisfies the
hypotheses of the clamping theorem, which then yields the clamped set. -/
theorem c5_lastN_clamp_witness :
    ((0 : ℤ) < 3 ∧ (("last").toList).isPrefixOf (lowered c5arg) = true ∧
      parse_int? (c5arg.drop 4) = some 3) ∧
    ((2 : ℤ) ≤ 3 → parse_last_n c5arg 2 = Finset.Icc 1 (2 : ℤ)) ∧
    ((3 : ℤ) < 2 → parse_last_n c5arg 2 = Finset.Icc ((2 : ℤ) - 3 + 1) (2 : ℤ)) :=
  ⟨⟨by decide, by decide, by decide⟩,
   c5_lastN_clamp c5arg 3 2 (by decide) (by decide) (by decide)⟩

/-- C6: on a non-empty index whose timestamps all parse, the time-proximity
query's best match minimizes the absolute minute-of-day difference to the
target, ties going to the first occurrence in scan order; the result is the
idx values of the window of positions from `best - 2` to `best + 2` clipped
to the list bounds, hence at most 5 entries, containing the best match, and
forming a contiguous range of exchange indices whenever the index is the
standard dense 1-based one. -/
theorem c6_around_time (l : List IndexEntry) (target : ℕ) (hne : l ≠ [])
    (hv : ∀ ex ∈ l, ex.timestamp.valid = true) :
    ∃ hb : bestMatch l target < l.length,
      (∀ p, ∀ hp : p < l.length,
        Nat.dist (l.get ⟨bestMatch l target, hb⟩).timestamp.minutes target ≤
          Nat.dist (l.get ⟨p, hp⟩).timestamp.minutes target) ∧
      (∀ p, ∀ hp : p < l.length, p < bestMatch l target →
        Nat.dist (l.get ⟨bestMatch l target, hb⟩).timestamp.minutes target <
          Nat.dist (l.get ⟨p, hp⟩).timestamp.minutes target) ∧
      find_exchanges_around_time l target =
        ((l.drop (bestMatch l target - 2)).take
          (min l.length (bestMatch l target + 3) - (bestMatch l target - 2))).map
          (·.idx) ∧
      (find_exchanges_around_time l target).length ≤ 5 ∧
      (l.get ⟨bestMatch l target, hb⟩).idx ∈ find_exchanges_around_time l target ∧
      ((∀ p, ∀ hp : p < l.length, (l.get ⟨p, hp⟩).idx = p + 1) →
        find_exchanges_around_time l target =
          List.range' (bestMatch l target - 2 + 1)
            (min l.length (bestMatch l target + 3) - (bestMatch l target - 2))) := by
  obtain ⟨j, hj, hb1, hmin, htie⟩ := findBest_none_spec target l hne hv 0 0
  have hBj : bestMatch l target = j := by
    rw [bestMatch, hb1]
    omega
  rw [hBj]
  have hwin : find_exchanges_around_time l target =
      ((l.drop (j - 2)).take (min l.length (j + 3) - (j - 2))).map (·.idx) := by
    rw [find_exchanges_around_time, if_neg hne]
    rw [hBj]
    norm_num [AROUND_TIME_WINDOW]
  refine ⟨hj, hmin, htie, hwin, ?_, ?_, ?_⟩
  · rw [hwin]
    simp [List.length_take, List.length_drop]
    omega
  · rw [hwin]
    apply List.mem_map.mpr
    refine ⟨l.get ⟨j, hj⟩, ?_, rfl⟩
    apply get_mem_drop_take l (j - 2) (min l.length (j + 3) - (j - 2)) j hj (by omega)
    omega
  · intro hidx
    rw [hwin, window_map_idx l (j - 2) _ hidx]
    congr 1
    omega

/-- C6 witness: a three-exchange index at 9:00, 14:00 and 20:00 queried
around 14:00 satisfies the hypotheses of the time-proximity theorem. -/
theorem c6_around_time_witness :
    c6list ≠ [] ∧ (∀ ex ∈ c6list, ex.timestamp.valid = true) ∧
    (∃ hb : bestMatch c6list 840 < c6list.length,
      (∀ p, ∀ hp : p < c6list.length,
        Nat.dist (c6list.get ⟨bestMatch c6list 840, hb⟩).timestamp.minutes 840 ≤
          Nat.dist (c6list.get ⟨p, hp⟩).timestamp.minutes 840) ∧
      (∀ p, ∀ hp : p < c6list.length, p < bestMatch c6list 840 →
        Nat.dist (c6list.get ⟨bestMatch c6list 840, hb⟩).timestamp.minutes 840 <
          Nat.dist (c6list.get ⟨p, hp⟩).timestamp.minutes 840) ∧
      find_exchanges_around_time c6list 840 =
        ((c6list.drop (bestMatch c6list 840 - 2)).take
          (min c6list.length (bestMatch c6list 840 + 3) -
            (bestMatch c6list 840 - 2))).map (·.idx) ∧
      (find_exchanges_around_time c6list 840).length ≤ 5 ∧
      (c6list.get ⟨bestMatch c6list 840, hb⟩).idx ∈
        find_exchanges_around_time c6list 840 ∧
      ((∀ p, ∀ hp : p < c6list.length, (c6list.get ⟨p, hp⟩).idx = p + 1) →
        find_exchanges_around_time c6list 840 =
          List.range' (bestMatch c6list 840 - 2 + 1)
            (min c6list.length (bestMatch c6list 840 + 3) -
              (bestMatch c6list 840 - 2)))) :=
  ⟨by decide, by decide, c6_around_time c6list 840 (by decide) (by decide)⟩

/-- C7: truncating a text longer than the cap yields a text of length at
most the cap plus the marker length with the marker as a suffix, and a
text at or under the cap is returned unchanged with no marker added. -/
theorem c7_truncate_bound (text : List Char) (cap : ℕ) :
    (cap < text.length →
      (truncate_text text cap).length ≤ cap + truncMarker.length ∧
      truncMarker <:+ truncate_text text cap) ∧
    (text.length ≤ cap → truncate_text text cap = text) := by
  constructor
  · intro h
    rw [truncate_text, if_neg (by omega)]
    constructor
    · simp
    · exact List.suffix_append _ _
  · intro h
    rw [truncate_text, if_pos h]

/-- C7 witness: a five-character text truncated at cap 3 obeys the bound
and carries the marker. -/
theorem c7_truncate_bound_witness :
    3 < (("hello").toList).length ∧
    (truncate_text (("hello").toList) 3).length ≤ 3 + truncMarker.length ∧
    truncMarker <:+ truncate_text (("hello").toList) 3 :=
  ⟨by decide, (c7_truncate_bound (("hello").toList) 3).1 (by decide)⟩

/-- C8: whenever more than 10 exchanges match a search, the capping step
signals truncation and keeps exactly 10 of the matches, all of them
matches, and every kept index exceeds every discarded match; at most 10
matches pass through unchanged and unsignalled. -/
theorem c8_search_cap (s : Finset ℕ) :
    (10 < s.card →
      (cap_search_results s).2 = true ∧
      (cap_search_results s).1.card = 10 ∧
      (cap_search_results s).1 ⊆ s ∧
      ∀ x ∈ (cap_search_results s).1, ∀ y ∈ s, y ∉ (cap_search_results s).1 → y < x) ∧
    (s.card ≤ 10 → cap_search_results s = (s, false)) := by
  constructor
  · intro h
    have hres : cap_search_results s =
        ((((s.sort (· ≤ ·)).reverse).take 10).toFinset, true) := by
      unfold cap_search_results
      rw [if_pos h]
    set L := (s.sort (· ≤ ·)).reverse with hL
    have hlen : L.length = s.card := by simp [hL]
    have hnd : L.Nodup := by
      rw [hL, List.nodup_reverse]
      exact s.sort_nodup _
    have hpair : L.Pairwise (· > ·) := List.pairwise_reverse.mpr (s.sort_sorted_lt)
    have hmemL : ∀ x, x ∈ L ↔ x ∈ s := by
      intro x
      rw [hL, List.mem_reverse, Finset.mem_sort]
    have htake_nd : (L.take 10).Nodup := hnd.sublist (List.take_sublist _ _)
    have hsub : ∀ x, x ∈ (L.take 10).toFinset → x ∈ s := by
      intro x hx
      rw [List.mem_toFinset] at hx
      exact (hmemL x).mp ((List.take_sublist _ _).mem hx)
    refine ⟨by rw [hres], ?_, ?_, ?_⟩
    · rw [hres]
      simp only [List.toFinset_card_of_nodup htake_nd, List.length_take]
      omega
    · intro x hx
      rw [hres] at hx
      exact hsub x hx
    · intro x hx y hy hyn
      rw [hres] at hx hyn
      simp only at hx hyn
      have hyL : y ∈ L := (hmemL y).mpr hy
      have hsplit := List.take_append_drop 10 L
      have hpair2 : (L.take 10 ++ L.drop 10).Pairwise (· > ·) := by
        rw [hsplit]
        exact hpair
      have h3 := (List.pairwise_append.mp hpair2).2.2
      have hyd : y ∈ L.drop 10 := by
        rw [← hsplit] at hyL
        rcases List.mem_append.mp hyL with hyt | hyd
        · exact absurd (List.mem_toFinset.mpr hyt) hyn
        · exact hyd
      exact h3 x (List.mem_toFinset.mp hx) y hyd
  · intro h
    unfold cap_search_results
    rw [if_neg (by omega)]

/-- C8 witness: an 11-element match set is capped to its 10 largest
members with the truncation flag raised. -/
theorem c8_search_cap_witness :
    10 < (Finset.range 11).card ∧
    ((cap_search_results (Finset.range 11)).2 = true ∧
      (cap_search_results (Finset.range 11)).1.card = 10 ∧
      (cap_search_results (Finset.range 11)).1 ⊆ Finset.range 11 ∧
      ∀ x ∈ (cap_search_results (Finset.range 11)).1, ∀ y ∈ Finset.range 11,
        y ∉ (cap_search_results (Finset.range 11)).1 → y < x) :=
  ⟨by decide, (c8_search_cap (Finset.range 11)).1 (by decide)⟩

/-- C9 (amended): paginated rendering emits exactly one line per exchange
(index, time-of-day, preview) and no date grouping: the page output is
invariant under arbitrary changes to the exchanges' calendar dates, so no
date header is ever emitted when the date changes between consecutive
rendered exchanges. -/
theorem c9_no_date_headers (f : IndexEntry → String) (exchanges : List IndexEntry)
    (page total_exchanges : ℕ) (session_start : Tstamp) :
    format_page (exchanges.map (fun ex => set_entry_date ex (f ex)))
        page total_exchanges session_start =
      format_page exchanges page total_exchanges session_start := by
  by_cases hemp : exchanges = []
  · subst hemp
    rfl
  · have hg : exchanges.map (fun ex => set_entry_date ex (f ex)) ≠ [] := by
      simpa [List.map_eq_nil_iff] using hemp
    unfold format_page
    rw [if_neg hg, if_neg hemp]
    have hslice :
        ((exchanges.map (fun ex => set_entry_date ex (f ex))).reverse.drop
            ((page - 1) * PAGE_SIZE)).take PAGE_SIZE =
          ((exchanges.reverse.drop ((page - 1) * PAGE_SIZE)).take PAGE_SIZE).map
            (fun ex => set_entry_date ex (f ex)) := by
      rw [← List.map_reverse, ← List.map_drop, ← List.map_take]
    have hcomp : exchange_line ∘ (fun ex => set_entry_date ex (f ex)) =
        exchange_line := funext fun ex => rfl
    simp only [hslice, List.map_eq_nil_iff, List.map_map, hcomp]

/-- C9 counterexample: a concrete page whose two rendered exchanges fall
on different calendar dates renders to the very same output as the page
with the date change removed, so no date header marks the change,
refuting the claim. -/
theorem c9_counterexample_no_header :
    (c9listA.map (fun ex => ex.timestamp.date)) ≠
      (c9listB.map (fun ex => ex.timestamp.date)) ∧
    format_page c9listA 1 2 c9ts1 = format_page c9listB 1 2 c9ts1 := by
  constructor
  · decide
  · rfl

/-- C10: every exchange the builder produces stems from an adjacent
user/assistant message pair and carries the user message's timestamp (and
texts), so time-proximity matching is against the time of the user turn. -/
theorem c10_exchange_timestamp_user (messages : List Message) (ex : Exchange)
    (hex : ex ∈ build_exchanges_from_messages messages) :
    ∃ i u a, messages[i]? = some u ∧ messages[i + 1]? = some a ∧
      u.role = "user" ∧ a.role = "assistant" ∧
      ex.timestamp = u.timestamp ∧ ex.user_text = u.text ∧
      ex.assistant_text = a.text :=
  buildFrom_mem_origin 1 messages ex hex

/-- C10 witness: the exchange built from a concrete two-message transcript
carries the user message's timestamp. -/
theorem c10_exchange_timestamp_user_witness :
    c10ex ∈ build_exchanges_from_messages c10msgs ∧
    ∃ i u a, c10msgs[i]? = some u ∧ c10msgs[i + 1]? = some a ∧
      u.role = "user" ∧ a.role = "assistant" ∧
      c10ex.timestamp = u.timestamp ∧ c10ex.user_text = u.text ∧
      c10ex.assistant_text = a.text :=
  ⟨by decide, c10_exchange_timestamp_user c10msgs c10ex (by decide)⟩
